import Mathlib

/-!
Verification of the authorized-keys store (`src/__init__.py`) against its
natural-language specification.

The store (`SSHAuthorizedKeysFile`) keeps an ordered list of key entries
(`self.keys`, each entry carrying its raw line `keydata`) together with an
on-disk `authorized_keys` file.  We embed:

* the on-disk file as `AKFile`: its physical lines (without newline
  characters) plus a flag recording whether the final line is
  newline-terminated (an append to a file whose last line lacks a newline
  merges bytes into that line, which is observable);
* the in-memory store as `SSHAuthorizedKeysFile` with its `keys` field,
  each entry represented by its `keydata` string (entries are
  observationally determined by their raw line);
* Python string primitives used by the source (`str.strip`, `str.split(' ')`,
  `' '.join`, file-line iteration) as executable functions on `List Char` /
  `String`;
* key parsing, which the source delegates to the external `sshpubkeys`
  library (not part of this repository), modelled from the spec (see
  `KeyEntry.parse`) with an abstract validity predicate.
-/

/-- Characters treated as whitespace by Python's `str.strip()`. -/
def isPySpace (c : Char) : Bool :=
  c = ' ' || c = '\t' || c = '\n' || c = '\r' || c = '\x0b' || c = '\x0c'

/-- Python `str.lstrip()` on a character list. -/
def lstripCh (l : List Char) : List Char := l.dropWhile isPySpace

/-- Python `str.rstrip()` on a character list. -/
def rstripCh (l : List Char) : List Char := (l.reverse.dropWhile isPySpace).reverse

/-- Python `str.strip()` on a character list. -/
def pyStripList (l : List Char) : List Char := rstripCh (lstripCh l)

/-- Python `str.strip()`: remove leading and trailing whitespace. -/
def pyStrip (s : String) : String := String.mk (pyStripList s.data)

/-- Python `str.split(' ')`: split at every single space character, keeping
empty fragments (`"a  b".split(' ') == ["a", "", "b"]`, `"".split(' ') == [""]`). -/
def splitSp : List Char → List (List Char)
  | [] => [[]]
  | c :: t =>
    if c = ' ' then [] :: splitSp t
    else
      match splitSp t with
      | [] => [[c]]
      | h :: r => (c :: h) :: r

/-- Python `' '.join`: interleave a single space between the fragments. -/
def joinSp : List (List Char) → List Char
  | [] => []
  | [t] => t
  | t :: ts => t ++ ' ' :: joinSp ts

/-- Helper for `wsTokens`: accumulate the current (reversed) token. -/
def wsTokensAux : List Char → List Char → List (List Char)
  | [], acc => if acc = [] then [] else [acc.reverse]
  | c :: t, acc =>
    if isPySpace c then
      if acc = [] then wsTokensAux t [] else acc.reverse :: wsTokensAux t []
    else wsTokensAux t (c :: acc)

/-- Python `str.split()` (no argument): the maximal runs of non-whitespace
characters, i.e. the whitespace-separated tokens of a line. -/
def wsTokens (l : List Char) : List (List Char) := wsTokensAux l []

namespace SSHAuthorizedKeysEntry

/-- `SSHAuthorizedKeysEntry.comment` (src lines 11-12):
`' '.join(self.keydata.split(' ')[2:]).strip()`. -/
def comment (keydata : String) : String :=
  String.mk (pyStripList (joinSp ((splitSp keydata.data).drop 2)))

end SSHAuthorizedKeysEntry

namespace KeyEntry

/-- Modelled from the spec: entry construction / `KeyEntry.parse` is
delegated by the source to the external `sshpubkeys` library, which is not
part of this repository.  Per the spec (§4.1) `parse` "fails with
`InvalidKeyFormat` when the line cannot be decoded as a supported
public-key type" and on success "returns an entry with `raw` set to `line`
trimmed".  Whether a line decodes depends only on its trimmed text (the
parser tokenizes after stripping), so validity is an abstract predicate
`valid` applied to the trimmed line; the entry is represented by its raw
text, the trimmed line. -/
def parse (valid : String → Bool) (line : String) : Option String :=
  if valid (pyStrip line) then some (pyStrip line) else none

end KeyEntry

/-- Constraints the spec places on a parseable key line (§6: "one public
key per line", a non-blank `<key-type> <base64-payload> [comment]` line):
its trimmed text is non-empty and contains no newline. -/
def ValidSpec (valid : String → Bool) : Prop :=
  ∀ s : String, valid (pyStrip s) = true →
    pyStrip s ≠ "" ∧ '\n' ∉ (pyStrip s).data

/-- The on-disk `authorized_keys` file: its physical lines (newline
characters excluded), and whether the last line is newline-terminated.
`lines = []` is the empty (or absent) file. -/
structure AKFile where
  lines : List String
  terminated : Bool
deriving DecidableEq

/-- Appending the bytes of `k ++ "\n"` to the file (Python
`open(filename, 'a').write(key.keydata + '\n')`, src line 62): if the file
does not end with a newline, the written text merges into its last line. -/
def appendLast (k : String) : List String → List String
  | [] => [k]
  | [l] => [l ++ k]
  | l :: ls => l :: appendLast k ls

/-- Effect of `write(k + '\n')` in append mode on the file. -/
def AKFile.appendLine (f : AKFile) (k : String) : AKFile :=
  if f.terminated then ⟨f.lines ++ [k], true⟩
  else ⟨appendLast k f.lines, true⟩

/-- The in-memory store: the class `SSHAuthorizedKeysFile`, whose state is
its list `self.keys` of entries, each represented by its `keydata`. -/
structure SSHAuthorizedKeysFile where
  keys : List String
deriving DecidableEq

/-- The duck-typed argument of `append` (src lines 45-60): a raw string, an
already-constructed entry (represented by its `keydata`), or a value of any
other type. -/
inductive AppendInput
  | str (line : String)
  | entry (keydata : String)
  | other
deriving DecidableEq

/-- Errors surfaced by the store's operations (`ValueError('Key already in
file')`, `ValueError` wrapping a parse failure, `TypeError`, `IndexError`). -/
inductive KSError
  | duplicateKey
  | invalidKeyFormat
  | typeError
deriving DecidableEq

instance {ε α : Type} [DecidableEq ε] [DecidableEq α] : DecidableEq (Except ε α) := fun a b =>
  match a, b with
  | .error e, .error e2 =>
    if h : e = e2 then .isTrue (congrArg Except.error h)
    else .isFalse (fun hc => h (Except.error.inj hc))
  | .error _, .ok _ => .isFalse (fun hc => Except.noConfusion hc)
  | .ok _, .error _ => .isFalse (fun hc => Except.noConfusion hc)
  | .ok v, .ok v2 =>
    if h : v = v2 then .isTrue (congrArg Except.ok h)
    else .isFalse (fun hc => h (Except.ok.inj hc))

namespace SSHAuthorizedKeysFile

/-- Parse every line in order, aborting at the first failure — the list
comprehension `[SSHAuthorizedKeysEntry(key) for key in open(self.filename)]`
of src line 41. -/
def parseAll (valid : String → Bool) : List String → Option (List String)
  | [] => some []
  | l :: ls =>
    match KeyEntry.parse valid l, parseAll valid ls with
    | some k, some ks => some (k :: ks)
    | _, _ => none

/-- The file-loading part of `SSHAuthorizedKeysFile.__init__` (src lines
40-43): construct an entry from every line of the file, in order; `none`
when some line fails to parse (the whole open aborts). -/
def openStore (valid : String → Bool) (f : AKFile) : Option SSHAuthorizedKeysFile :=
  (parseAll valid f.lines).map SSHAuthorizedKeysFile.mk

/-- `SSHAuthorizedKeysFile.append` (src lines 45-63).  String input: exact
membership test of the input against the stored `keydata` values, then
parse; entry input: membership of the entry's `keydata` against the stored
`keydata` values stripped; any other value: `TypeError`.  On success the
raw line is appended to the file (with a newline) and then the entry to
`keys`. -/
def append (valid : String → Bool) (st : SSHAuthorizedKeysFile) (f : AKFile) :
    AppendInput → Except KSError (SSHAuthorizedKeysFile × AKFile)
  | .str line =>
    if line ∈ st.keys then .error .duplicateKey
    else
      match KeyEntry.parse valid line with
      | none => .error .invalidKeyFormat
      | some k => .ok (⟨st.keys ++ [k]⟩, f.appendLine k)
  | .entry k =>
    if k ∈ st.keys.map pyStrip then .error .duplicateKey
    else .ok (⟨st.keys ++ [k]⟩, f.appendLine k)
  | .other => .error .typeError

/-- Python list indexing: indices in `[0, n)` address directly, indices in
`[-n, 0)` address from the end, anything else raises `IndexError`. -/
def pyIndex (n : Nat) (i : Int) : Option Nat :=
  if 0 ≤ i ∧ i < (n : Int) then some i.toNat
  else if -(n : Int) ≤ i ∧ i < 0 then some ((n : Int) + i).toNat
  else none

/-- `SSHAuthorizedKeysFile.__getitem__` (src lines 65-66): `self.keys[key]`
with Python list-index semantics; `none` is `IndexError`. -/
def getItem (st : SSHAuthorizedKeysFile) (i : Int) : Option String :=
  (pyIndex st.keys.length i).bind fun j => st.keys.get? j

/-- `SSHAuthorizedKeysFile.__delitem__` (src lines 68-79): look up the
entry (Python indexing), read the file's lines stripped, write back (each
with a newline) every stripped line different from the entry's `keydata`,
then `self.keys.remove(ssh_key)`.  `remove` removes the first element `==`
the looked-up entry; entry objects compare by identity and the same object
cannot occur twice in `keys` (re-appending an entry whose `keydata` is
stored trips the duplicate check), so it removes exactly the element at the
resolved index. -/
def delItem (st : SSHAuthorizedKeysFile) (f : AKFile) (i : Int) :
    Option (SSHAuthorizedKeysFile × AKFile) :=
  (pyIndex st.keys.length i).bind fun j =>
    (st.keys.get? j).map fun target =>
      (⟨st.keys.eraseIdx j⟩,
       ⟨(f.lines.map pyStrip).filter (fun l => decide (l ≠ target)), true⟩)

end SSHAuthorizedKeysFile

/-- Invariant A of the spec (§3), file/memory agreement: the raw texts of
the entries are the non-blank lines of the file, in order.  Raw texts are
trimmed, so lines are compared after trimming. -/
def FileMemAgree (st : SSHAuthorizedKeysFile) (f : AKFile) : Prop :=
  st.keys = (f.lines.map pyStrip).filter (fun l => decide (l ≠ ""))

/-- The spec's invariant on KeyEntry (§3): a constructed entry's raw text
is a parsed, trimmed, non-blank line.  Constrains the entry-object variant
of `append`'s input, which the source does not validate. -/
def EntryOK : AppendInput → Prop
  | .entry k => pyStrip k = k ∧ k ≠ ""
  | _ => True

/-- A concrete key-validity predicate used to instantiate the abstract
parser in witnesses and counterexamples: exactly one trimmed line is a
well-formed key. -/
def validC : String → Bool := fun s => s == "ssh-rsa AAA"

theorem validC_spec : ValidSpec validC := by
  intro s hs
  have h : pyStrip s = "ssh-rsa AAA" := by simpa [validC] using hs
  rw [h]
  exact ⟨by decide, by decide⟩

/-! ### Facts about the Python string primitives -/

theorem rstripCh_eq_rdropWhile (l : List Char) : rstripCh l = l.rdropWhile isPySpace := rfl

theorem pyStripList_head (l : List Char) (c : Char)
    (h : (pyStripList l).head? = some c) : isPySpace c = false := by
  rw [show pyStripList l = (l.dropWhile isPySpace).rdropWhile isPySpace from rfl] at h
  cases hY : (l.dropWhile isPySpace).rdropWhile isPySpace with
  | nil => rw [hY] at h; simp at h
  | cons a r =>
    rw [hY] at h
    simp only [List.head?_cons, Option.some.injEq] at h
    subst h
    obtain ⟨t, ht⟩ := List.rdropWhile_prefix (p := isPySpace) (l := l.dropWhile isPySpace)
    rw [hY] at ht
    have hfix : (l.dropWhile isPySpace).dropWhile isPySpace = l.dropWhile isPySpace :=
      List.dropWhile_idempotent _ _
    rw [← ht, List.cons_append] at hfix
    by_contra hcon
    rw [Bool.not_eq_false] at hcon
    rw [List.dropWhile_cons_of_pos hcon] at hfix
    have hlen : (List.dropWhile isPySpace (r ++ t)).length = (r ++ t).length + 1 := by
      rw [hfix]; rfl
    have hle := ((List.dropWhile_suffix (l := r ++ t) isPySpace).sublist).length_le
    omega

theorem pyStripList_idem (l : List Char) : pyStripList (pyStripList l) = pyStripList l := by
  have hhead : (pyStripList l).dropWhile isPySpace = pyStripList l := by
    cases hY : pyStripList l with
    | nil => rfl
    | cons a r =>
      have ha : isPySpace a = false := pyStripList_head l a (by rw [hY]; rfl)
      rw [List.dropWhile_cons_of_neg (by simp [ha])]
  show rstripCh (lstripCh (pyStripList l)) = pyStripList l
  unfold lstripCh
  rw [hhead]
  show (pyStripList l).rdropWhile isPySpace = pyStripList l
  unfold pyStripList
  rw [rstripCh_eq_rdropWhile]
  exact List.rdropWhile_idempotent _ _

theorem pyStrip_idem (s : String) : pyStrip (pyStrip s) = pyStrip s := by
  show String.mk (pyStripList (String.mk (pyStripList s.data)).data) = _
  rw [show (String.mk (pyStripList s.data)).data = pyStripList s.data from rfl,
    pyStripList_idem]
  rfl

theorem pyStripList_eq_self (l : List Char)
    (hhead : ∀ c, l.head? = some c → isPySpace c = false)
    (hlast : ∀ c, l.getLast? = some c → isPySpace c = false) :
    pyStripList l = l := by
  have h1 : lstripCh l = l := by
    cases l with
    | nil => rfl
    | cons a t =>
      unfold lstripCh
      rw [List.dropWhile_cons_of_neg (by simp [hhead a rfl])]
  show rstripCh (lstripCh l) = l
  rw [h1, rstripCh_eq_rdropWhile, List.rdropWhile_eq_self_iff]
  intro hl hp
  have := hlast (l.getLast hl) (List.getLast?_eq_getLast_of_ne_nil hl)
  simp [hp] at this

/-! ### Facts about the store operations -/

theorem parse_eq_some_iff (valid : String → Bool) (line k : String) :
    KeyEntry.parse valid line = some k ↔
      valid (pyStrip line) = true ∧ k = pyStrip line := by
  unfold KeyEntry.parse
  by_cases hv : valid (pyStrip line) = true
  · simp [hv, eq_comm]
  · simp [hv]

theorem parse_eq_none_iff (valid : String → Bool) (line : String) :
    KeyEntry.parse valid line = none ↔ valid (pyStrip line) = false := by
  unfold KeyEntry.parse
  cases hv : valid (pyStrip line) <;> simp [hv]

namespace SSHAuthorizedKeysFile

theorem parseAll_eq_some (valid : String → Bool) :
    ∀ (ls ks : List String), parseAll valid ls = some ks →
      ks = ls.map pyStrip ∧ ∀ l ∈ ls, valid (pyStrip l) = true := by
  intro ls
  induction ls with
  | nil =>
    intro ks h
    simp only [parseAll, Option.some.injEq] at h
    subst h
    simp
  | cons l t ih =>
    intro ks h
    unfold parseAll at h
    cases hpl : KeyEntry.parse valid l with
    | none => rw [hpl] at h; exact absurd h (by simp)
    | some k =>
      rw [hpl] at h
      cases hpt : parseAll valid t with
      | none => rw [hpt] at h; exact absurd h (by simp)
      | some ks2 =>
        rw [hpt] at h
        simp only [Option.some.injEq] at h
        subst h
        obtain ⟨hv, hk⟩ := (parse_eq_some_iff valid l k).mp hpl
        obtain ⟨h1, h2⟩ := ih ks2 hpt
        constructor
        · simp [hk, h1]
        · intro x hx
          rcases List.mem_cons.mp hx with hxl | hxt
          · subst hxl; exact hv
          · exact h2 x hxt

theorem parseAll_of_all (valid : String → Bool) :
    ∀ ls : List String, (∀ l ∈ ls, valid (pyStrip l) = true) →
      parseAll valid ls = some (ls.map pyStrip) := by
  intro ls
  induction ls with
  | nil => intro _; rfl
  | cons l t ih =>
    intro h
    have hv := h l (List.mem_cons_self l t)
    have ht := ih (fun x hx => h x (List.mem_cons_of_mem l hx))
    unfold parseAll KeyEntry.parse
    rw [if_pos hv, ht]
    rfl

theorem append_str_ok (valid : String → Bool) (st : SSHAuthorizedKeysFile) (f : AKFile)
    (L : String) (st₁ : SSHAuthorizedKeysFile) (f₁ : AKFile)
    (h : append valid st f (.str L) = .ok (st₁, f₁)) :
    valid (pyStrip L) = true ∧ L ∉ st.keys ∧
      st₁ = ⟨st.keys ++ [pyStrip L]⟩ ∧ f₁ = f.appendLine (pyStrip L) := by
  simp only [append] at h
  by_cases hm : L ∈ st.keys
  · rw [if_pos hm] at h; exact absurd h (by simp)
  · rw [if_neg hm] at h
    cases hp : KeyEntry.parse valid L with
    | none => rw [hp] at h; exact absurd h (by simp)
    | some k =>
      rw [hp] at h
      simp only [Except.ok.injEq, Prod.mk.injEq] at h
      obtain ⟨hv, hk⟩ := (parse_eq_some_iff valid L k).mp hp
      subst hk
      exact ⟨hv, hm, h.1.symm, h.2.symm⟩

theorem append_entry_ok (valid : String → Bool) (st : SSHAuthorizedKeysFile) (f : AKFile)
    (k : String) (st₁ : SSHAuthorizedKeysFile) (f₁ : AKFile)
    (h : append valid st f (.entry k) = .ok (st₁, f₁)) :
    k ∉ st.keys.map pyStrip ∧ st₁ = ⟨st.keys ++ [k]⟩ ∧ f₁ = f.appendLine k := by
  simp only [append] at h
  by_cases hm : k ∈ st.keys.map pyStrip
  · rw [if_pos hm] at h; exact absurd h (by simp)
  · rw [if_neg hm] at h
    simp only [Except.ok.injEq, Prod.mk.injEq] at h
    exact ⟨hm, h.1.symm, h.2.symm⟩

theorem appendLine_terminated (f : AKFile) (k : String) (h : f.terminated = true) :
    f.appendLine k = ⟨f.lines ++ [k], true⟩ := by
  unfold AKFile.appendLine
  rw [h]
  simp

theorem delItem_eq_some (st : SSHAuthorizedKeysFile) (f : AKFile) (i : Int)
    (st₁ : SSHAuthorizedKeysFile) (f₁ : AKFile)
    (h : delItem st f i = some (st₁, f₁)) :
    ∃ j target, pyIndex st.keys.length i = some j ∧ st.keys.get? j = some target ∧
      st₁ = ⟨st.keys.eraseIdx j⟩ ∧
      f₁ = ⟨(f.lines.map pyStrip).filter (fun l => decide (l ≠ target)), true⟩ := by
  unfold delItem at h
  cases hj : pyIndex st.keys.length i with
  | none => rw [hj] at h; exact absurd h (by simp)
  | some j =>
    rw [hj] at h
    rw [Option.some_bind'] at h
    cases hg : st.keys.get? j with
    | none => rw [hg] at h; exact absurd h (by simp)
    | some target =>
      rw [hg] at h
      simp only [Option.map_some', Option.some.injEq, Prod.mk.injEq] at h
      exact ⟨j, target, rfl, hg, h.1.symm, h.2.symm⟩

end SSHAuthorizedKeysFile

theorem eraseIdx_eq_filter_of_nodup :
    ∀ (ks : List String) (j : Nat) (k : String), ks.Nodup → ks.get? j = some k →
      ks.eraseIdx j = ks.filter (fun l => decide (l ≠ k)) := by
  intro ks
  induction ks with
  | nil => intro j k _ h; simp at h
  | cons a t ih =>
    intro j k hnd hget
    cases j with
    | zero =>
      have hak : a = k := by simpa using hget
      subst hak
      have hnotmem : a ∉ t := (List.nodup_cons.mp hnd).1
      show t = List.filter (fun l => decide (l ≠ a)) (a :: t)
      rw [List.filter_cons, if_neg (by simp)]
      exact (List.filter_eq_self.mpr (fun x hx => by
        simp only [decide_eq_true_eq]
        exact fun hxa => hnotmem (hxa ▸ hx))).symm
    | succ n =>
      have hget' : t.get? n = some k := by simpa using hget
      have hnd' := (List.nodup_cons.mp hnd).2
      have hmem : k ∈ t := List.get?_mem hget'
      have hak : a ≠ k := fun hh => (List.nodup_cons.mp hnd).1 (hh ▸ hmem)
      show a :: t.eraseIdx n = List.filter (fun l => decide (l ≠ k)) (a :: t)
      rw [List.filter_cons, if_pos (by simp [hak]), ih n k hnd' hget']

theorem map_pyStrip_pyStrip (ls : List String) :
    (ls.map pyStrip).map pyStrip = ls.map pyStrip := by
  rw [List.map_map]
  exact List.map_congr_left (fun a _ => pyStrip_idem a)


/-! ### The claims -/

theorem append_str_mem_dup (valid : String → Bool) (st : SSHAuthorizedKeysFile)
    (f : AKFile) (L : String) (hmem : L ∈ st.keys) :
    SSHAuthorizedKeysFile.append valid st f (.str L) = .error .duplicateKey := by
  simp only [SSHAuthorizedKeysFile.append]
  rw [if_pos hmem]

/-- C9: for every store and every input value that is neither a string nor a
KeyEntry object, `append` fails with a type error (the `else: raise
TypeError(...)` branch, src lines 59-60, reached before the file write and
the list append, so no state is produced and both `keys` and the file are
left unchanged). -/
theorem append_other_type_error (valid : String → Bool)
    (st : SSHAuthorizedKeysFile) (f : AKFile) :
    SSHAuthorizedKeysFile.append valid st f .other = .error .typeError ∧
      ∀ (st₁ : SSHAuthorizedKeysFile) (f₁ : AKFile),
        SSHAuthorizedKeysFile.append valid st f .other ≠ .ok (st₁, f₁) := by
  refine ⟨rfl, fun st₁ f₁ hc => ?_⟩
  rw [show SSHAuthorizedKeysFile.append valid st f .other = .error .typeError from rfl] at hc
  exact Except.noConfusion hc

/-- C10: when `append` is given a string that is already stored as some
entry's raw text, the duplicate check (src line 47) fires before parsing
(src line 50), so the result is the duplicate-key error no matter whether
the string parses. -/
theorem append_str_dup_before_parse (valid : String → Bool)
    (st : SSHAuthorizedKeysFile) (f : AKFile) (L : String)
    (hmem : L ∈ st.keys) :
    SSHAuthorizedKeysFile.append valid st f (.str L) = .error .duplicateKey :=
  append_str_mem_dup valid st f L hmem

/-- C10 witness: a store holding the raw line `"ssh-rsa AAA"`; appending the
same string again fails with the duplicate error even under a validity
predicate that parses nothing, i.e. even though the string would also fail
to parse. -/
theorem append_str_dup_before_parse_witness :
    SSHAuthorizedKeysFile.append (fun _ => false) ⟨["ssh-rsa AAA"]⟩ ⟨["ssh-rsa AAA"], true⟩
        (.str "ssh-rsa AAA") = .error .duplicateKey ∧
      KeyEntry.parse (fun _ => false) "ssh-rsa AAA" = none :=
  ⟨append_str_dup_before_parse (fun _ => false) ⟨["ssh-rsa AAA"]⟩ ⟨["ssh-rsa AAA"], true⟩
      "ssh-rsa AAA" (by decide),
    by decide⟩

theorem pyIndex_lt (n : Nat) (i : Int) (j : Nat)
    (h : SSHAuthorizedKeysFile.pyIndex n i = some j) : j < n := by
  unfold SSHAuthorizedKeysFile.pyIndex at h
  split at h
  · rename_i h1
    simp only [Option.some.injEq] at h
    omega
  · split at h
    · rename_i h2
      simp only [Option.some.injEq] at h
      omega
    · exact absurd h (by simp)

theorem pyIndex_none_iff (n : Nat) (i : Int) :
    SSHAuthorizedKeysFile.pyIndex n i = none ↔ i < -(n : Int) ∨ (n : Int) ≤ i := by
  unfold SSHAuthorizedKeysFile.pyIndex
  split
  · rename_i h1
    constructor
    · intro hc; exact absurd hc (by simp)
    · intro hc; exfalso; omega
  · split
    · rename_i h1 h2
      constructor
      · intro hc; exact absurd hc (by simp)
      · intro hc; exfalso; omega
    · rename_i h1 h2
      constructor
      · intro _; omega
      · intro _; rfl

theorem getItem_none_iff_pyIndex (st : SSHAuthorizedKeysFile) (i : Int) :
    SSHAuthorizedKeysFile.getItem st i = none ↔
      SSHAuthorizedKeysFile.pyIndex st.keys.length i = none := by
  unfold SSHAuthorizedKeysFile.getItem
  cases hp : SSHAuthorizedKeysFile.pyIndex st.keys.length i with
  | none => simp
  | some j =>
    simp only [Option.some_bind']
    rw [List.get?_eq_get (pyIndex_lt _ _ _ hp)]
    simp

/-- C5 (amended): index access and delete follow Python list-index
semantics: they fail exactly when `i` is outside `[-n, n)` where `n` is the
number of entries; an index in `[0, n)` addresses directly and a negative
index in `[-n, 0)` addresses the entry at `n + i` — it does not fail. -/
theorem index_bounds_amended (st : SSHAuthorizedKeysFile) (i : Int) :
    (SSHAuthorizedKeysFile.getItem st i = none ↔
      i < -(st.keys.length : Int) ∨ (st.keys.length : Int) ≤ i) ∧
    (∀ f : AKFile, (SSHAuthorizedKeysFile.delItem st f i).isSome
        = (SSHAuthorizedKeysFile.getItem st i).isSome) ∧
    (-(st.keys.length : Int) ≤ i → i < 0 →
      SSHAuthorizedKeysFile.getItem st i
        = st.keys.get? ((st.keys.length : Int) + i).toNat) := by
  refine ⟨(getItem_none_iff_pyIndex st i).trans (pyIndex_none_iff _ i), fun f => ?_, ?_⟩
  · unfold SSHAuthorizedKeysFile.delItem SSHAuthorizedKeysFile.getItem
    cases hp : SSHAuthorizedKeysFile.pyIndex st.keys.length i with
    | none => simp
    | some j =>
      simp only [Option.some_bind']
      rw [List.get?_eq_get (pyIndex_lt _ _ _ hp)]
      simp
  · intro h1 h2
    unfold SSHAuthorizedKeysFile.getItem SSHAuthorizedKeysFile.pyIndex
    rw [if_neg (by omega), if_pos (And.intro h1 h2)]
    exact Option.some_bind' _ _

/-- C5 counterexample: on a one-entry store the index `-1` succeeds for
both access and delete (Python negative indexing wraps to the last entry),
while the claim requires every negative index to fail. -/
theorem index_bounds_counterexample :
    SSHAuthorizedKeysFile.getItem ⟨["ssh-rsa AAA"]⟩ (-1) = some "ssh-rsa AAA" ∧
    (SSHAuthorizedKeysFile.delItem ⟨["ssh-rsa AAA"]⟩ ⟨["ssh-rsa AAA"], true⟩ (-1)).isSome
      = true := by
  decide

/-- C5 witness: the amended theorem evaluated on the one-entry store at
index -1: access resolves to the entry at position `1 + (-1) = 0`. -/
theorem index_bounds_witness :
    SSHAuthorizedKeysFile.getItem ⟨["ssh-rsa AAA"]⟩ (-1)
      = List.get? ["ssh-rsa AAA"] (((1 : Int) + -1).toNat) :=
  (index_bounds_amended ⟨["ssh-rsa AAA"]⟩ (-1)).2.2 (by decide) (by decide)

/-- C4 (amended): delete rewrites the file keeping, in order, exactly the
stripped lines whose trimmed text differs from the targeted entry's raw
text — every matching line is removed, not only the first such line — and
removes from `keys` the entry at the resolved index. -/
theorem delete_rewrite_amended (st : SSHAuthorizedKeysFile) (f : AKFile) (i : Int)
    (st₁ : SSHAuthorizedKeysFile) (f₁ : AKFile) (target : String)
    (hget : SSHAuthorizedKeysFile.getItem st i = some target)
    (hdel : SSHAuthorizedKeysFile.delItem st f i = some (st₁, f₁)) :
    f₁.lines = (f.lines.map pyStrip).filter (fun l => decide (l ≠ target)) ∧
    (∀ l ∈ f₁.lines, l ≠ target) ∧
    f₁.lines.Sublist (f.lines.map pyStrip) ∧
    (∀ l ∈ f.lines.map pyStrip, l ≠ target → l ∈ f₁.lines) ∧
    ∃ j, SSHAuthorizedKeysFile.pyIndex st.keys.length i = some j ∧
      st.keys.get? j = some target ∧ st₁.keys = st.keys.eraseIdx j := by
  obtain ⟨j, t2, hj, hg, hst, hf⟩ := SSHAuthorizedKeysFile.delItem_eq_some st f i st₁ f₁ hdel
  have hgi : SSHAuthorizedKeysFile.getItem st i = some t2 := by
    unfold SSHAuthorizedKeysFile.getItem
    rw [hj, Option.some_bind', hg]
  rw [hget] at hgi
  have ht2 : t2 = target := by simpa using hgi.symm
  subst ht2
  subst hst
  subst hf
  refine ⟨rfl, ?_, List.filter_sublist _, ?_, j, hj, hg, rfl⟩
  · intro l hl
    have := (List.mem_filter.mp hl).2
    simpa using this
  · intro l hl hne
    exact List.mem_filter.mpr ⟨hl, by simpa using hne⟩

/-- C4 counterexample: the file holds two physical lines matching the
targeted entry's raw text, separated by another line; delete removes both
matching lines, whereas the claim says only the first matching line is
removed (which would leave `["x", "ssh-rsa AAA"]`). -/
theorem delete_rewrite_counterexample :
    SSHAuthorizedKeysFile.delItem ⟨["ssh-rsa AAA"]⟩
        ⟨["ssh-rsa AAA", "x", "ssh-rsa AAA"], true⟩ 0
      = some (⟨[]⟩, ⟨["x"], true⟩) ∧
    (["x"] : List String) ≠ ["x", "ssh-rsa AAA"] := by
  decide

/-- C4 witness: the amended theorem evaluated on a two-entry store deleting
index 0: the resulting file is the filtered rewrite. -/
theorem delete_rewrite_witness :
    (⟨["k2"], true⟩ : AKFile).lines
      = ((["ssh-rsa AAA", "k2"].map pyStrip).filter
          (fun l => decide (l ≠ "ssh-rsa AAA"))) :=
  (delete_rewrite_amended ⟨["ssh-rsa AAA", "k2"]⟩ ⟨["ssh-rsa AAA", "k2"], true⟩ 0
      ⟨["k2"]⟩ ⟨["k2"], true⟩ "ssh-rsa AAA" (by decide) (by decide)).1

/-- C3 (amended): append reports the duplicate-key error exactly when, for
a string input, the input string itself — not its trimmed form — equals
some stored raw text (src line 47 compares the raw strings exactly), and,
for an entry input, the entry's raw text equals some stored raw text after
stripping (src line 56); other-typed inputs never produce it.  Distinct
comments still make distinct keys, but for string inputs surrounding
whitespace also makes the input escape the duplicate check. -/
theorem append_dup_condition_amended (valid : String → Bool)
    (st : SSHAuthorizedKeysFile) (f : AKFile) :
    (∀ L, SSHAuthorizedKeysFile.append valid st f (.str L) = .error .duplicateKey
      ↔ L ∈ st.keys) ∧
    (∀ k, SSHAuthorizedKeysFile.append valid st f (.entry k) = .error .duplicateKey
      ↔ k ∈ st.keys.map pyStrip) ∧
    SSHAuthorizedKeysFile.append valid st f .other ≠ .error .duplicateKey := by
  refine ⟨fun L => ?_, fun k => ?_, ?_⟩
  · simp only [SSHAuthorizedKeysFile.append]
    by_cases hm : L ∈ st.keys
    · rw [if_pos hm]; simp [hm]
    · rw [if_neg hm]
      cases hp : KeyEntry.parse valid L with
      | none => simp [hm]
      | some k => simp [hm]
  · simp only [SSHAuthorizedKeysFile.append]
    by_cases hm : k ∈ st.keys.map pyStrip
    · rw [if_pos hm]; simp [hm]
    · rw [if_neg hm]; simp [hm]
  · intro hc
    exact KSError.noConfusion (Except.error.inj hc)

/-- C3 counterexample: the input string `"ssh-rsa AAA\n"` has the same
trimmed raw text as the stored entry `"ssh-rsa AAA"`, so by the claim the
append must fail with the duplicate error; instead it succeeds and appends
a duplicate. -/
theorem append_dup_condition_counterexample :
    pyStrip "ssh-rsa AAA\n" = pyStrip "ssh-rsa AAA" ∧
    SSHAuthorizedKeysFile.append validC ⟨["ssh-rsa AAA"]⟩ ⟨["ssh-rsa AAA"], true⟩
        (.str "ssh-rsa AAA\n")
      = .ok (⟨["ssh-rsa AAA", "ssh-rsa AAA"]⟩, ⟨["ssh-rsa AAA", "ssh-rsa AAA"], true⟩) := by
  decide

/-- C7 (amended): for a key line L equal to its trimmed form, once
append(L) has succeeded a second append(L) fails with the duplicate-key
error (raised on src line 48, before the file write on line 62, so the
failed call changes neither `keys` nor the file); an input that differs
from its trimmed form (e.g. by a trailing newline) escapes the duplicate
check, so this restriction is necessary. -/
theorem append_idempotence_amended (valid : String → Bool)
    (st st₁ : SSHAuthorizedKeysFile) (f f₁ : AKFile) (L : String)
    (hL : pyStrip L = L)
    (h1 : SSHAuthorizedKeysFile.append valid st f (.str L) = .ok (st₁, f₁)) :
    SSHAuthorizedKeysFile.append valid st₁ f₁ (.str L) = .error .duplicateKey := by
  obtain ⟨hv, hm, hst, hf⟩ := SSHAuthorizedKeysFile.append_str_ok valid st f L st₁ f₁ h1
  subst hst
  apply append_str_mem_dup
  show L ∈ st.keys ++ [pyStrip L]
  rw [hL]
  exact List.mem_append_right _ (List.mem_singleton_self L)

/-- C7 witness: appending the trimmed line `"ssh-rsa AAA"` to the empty
store succeeds, and the second identical append fails with the duplicate
error. -/
theorem append_idempotence_witness :
    SSHAuthorizedKeysFile.append validC ⟨["ssh-rsa AAA"]⟩ ⟨["ssh-rsa AAA"], true⟩
        (.str "ssh-rsa AAA") = .error .duplicateKey :=
  append_idempotence_amended validC ⟨[]⟩ ⟨["ssh-rsa AAA"]⟩ ⟨[], true⟩
    ⟨["ssh-rsa AAA"], true⟩ "ssh-rsa AAA" (by decide) (by decide)

/-- C7 counterexample: L = `"ssh-rsa AAA\n"` is a valid key line; the first
append succeeds, and the second append of the very same L also succeeds —
growing the store to two entries — instead of failing with the duplicate
error and leaving the size unchanged. -/
theorem append_idempotence_counterexample :
    SSHAuthorizedKeysFile.append validC ⟨[]⟩ ⟨[], true⟩ (.str "ssh-rsa AAA\n")
      = .ok (⟨["ssh-rsa AAA"]⟩, ⟨["ssh-rsa AAA"], true⟩) ∧
    SSHAuthorizedKeysFile.append validC ⟨["ssh-rsa AAA"]⟩ ⟨["ssh-rsa AAA"], true⟩
        (.str "ssh-rsa AAA\n")
      ≠ .error .duplicateKey := by
  decide

/-- C2: round-trip — appending a valid key line L to a store whose file is
newline-terminated and fully parseable, discarding the store, and
reopening from the resulting file yields a store containing an entry whose
raw text is L trimmed (`pyStrip L`: L without surrounding whitespace, in
particular without its trailing newline). -/
theorem roundtrip_append_reopen (valid : String → Bool)
    (st st₁ : SSHAuthorizedKeysFile) (f f₁ : AKFile) (L : String)
    (hterm : f.terminated = true)
    (hall : ∀ l ∈ f.lines, valid (pyStrip l) = true)
    (hap : SSHAuthorizedKeysFile.append valid st f (.str L) = .ok (st₁, f₁)) :
    ∃ st₂, SSHAuthorizedKeysFile.openStore valid f₁ = some st₂ ∧
      pyStrip L ∈ st₂.keys := by
  obtain ⟨hv, hm, hst, hf⟩ := SSHAuthorizedKeysFile.append_str_ok valid st f L st₁ f₁ hap
  subst hf
  rw [SSHAuthorizedKeysFile.appendLine_terminated f _ hterm]
  have hall2 : ∀ l ∈ f.lines ++ [pyStrip L], valid (pyStrip l) = true := by
    intro l hl
    rcases List.mem_append.mp hl with h | h
    · exact hall l h
    · have hlL : l = pyStrip L := by simpa using h
      subst hlL
      rw [pyStrip_idem]
      exact hv
  refine ⟨⟨(f.lines ++ [pyStrip L]).map pyStrip⟩, ?_, ?_⟩
  · show (SSHAuthorizedKeysFile.parseAll valid
        (f.lines ++ [pyStrip L])).map SSHAuthorizedKeysFile.mk = _
    rw [SSHAuthorizedKeysFile.parseAll_of_all valid _ hall2]
    rfl
  · show pyStrip L ∈ (f.lines ++ [pyStrip L]).map pyStrip
    rw [List.map_append]
    apply List.mem_append_right
    simp [pyStrip_idem]

/-- C2 witness: appending `"ssh-rsa AAA\n"` to an empty store and reopening
yields a store containing the trimmed raw line. -/
theorem roundtrip_append_reopen_witness :
    ∃ st₂, SSHAuthorizedKeysFile.openStore validC ⟨["ssh-rsa AAA"], true⟩ = some st₂ ∧
      pyStrip "ssh-rsa AAA\n" ∈ st₂.keys :=
  roundtrip_append_reopen validC ⟨[]⟩ ⟨["ssh-rsa AAA"]⟩ ⟨[], true⟩
    ⟨["ssh-rsa AAA"], true⟩ "ssh-rsa AAA\n" rfl (by simp) (by decide)

theorem parseAll_eq_none_of_mem (valid : String → Bool) :
    ∀ (ls : List String) (l : String), l ∈ ls → valid (pyStrip l) = false →
      SSHAuthorizedKeysFile.parseAll valid ls = none := by
  intro ls
  induction ls with
  | nil => intro l h; simp at h
  | cons a t ih =>
    intro l hl hlf
    unfold SSHAuthorizedKeysFile.parseAll
    rcases List.mem_cons.mp hl with h | h
    · subst h
      rw [(parse_eq_none_iff valid l).mpr hlf]
    · cases hpa : KeyEntry.parse valid a with
      | none => rfl
      | some k => rw [ih l h hlf]

/-- C6 (amended): open reads the file line by line and parses every
line — blank lines are not skipped: a line that is blank after trimming
fails to parse like any other unparsable line and aborts the whole open
with the parse failure.  When every line parses, `keys` is populated with
the trimmed lines in file order, and the open fails exactly when some line
fails to parse. -/
theorem open_parses_every_line_amended (valid : String → Bool) (hv : ValidSpec valid)
    (f : AKFile) :
    ((∃ l ∈ f.lines, pyStrip l = "") → SSHAuthorizedKeysFile.openStore valid f = none) ∧
    ((∀ l ∈ f.lines, valid (pyStrip l) = true) →
      SSHAuthorizedKeysFile.openStore valid f = some ⟨f.lines.map pyStrip⟩) ∧
    (SSHAuthorizedKeysFile.openStore valid f = none ↔
      ∃ l ∈ f.lines, valid (pyStrip l) = false) := by
  have hiff : SSHAuthorizedKeysFile.openStore valid f = none ↔
      ∃ l ∈ f.lines, valid (pyStrip l) = false := by
    constructor
    · intro h
      by_contra hc
      push_neg at hc
      have hall : ∀ l ∈ f.lines, valid (pyStrip l) = true := by
        intro l hl
        cases hb : valid (pyStrip l)
        · exact absurd hb (hc l hl)
        · rfl
      have := SSHAuthorizedKeysFile.parseAll_of_all valid f.lines hall
      unfold SSHAuthorizedKeysFile.openStore at h
      rw [this] at h
      exact Option.noConfusion h
    · rintro ⟨l, hl, hlf⟩
      unfold SSHAuthorizedKeysFile.openStore
      rw [parseAll_eq_none_of_mem valid f.lines l hl hlf]
      rfl
  refine ⟨?_, ?_, hiff⟩
  · rintro ⟨l, hl, hblank⟩
    apply hiff.mpr
    refine ⟨l, hl, ?_⟩
    cases hb : valid (pyStrip l)
    · rfl
    · exact absurd hblank (hv l hb).1
  · intro hall
    unfold SSHAuthorizedKeysFile.openStore
    rw [SSHAuthorizedKeysFile.parseAll_of_all valid f.lines hall]
    rfl

/-- C6 counterexample: a file whose first line parses and whose second line
is blank after trimming; the claim requires the blank line to be skipped
and the open to succeed with the one parsed entry, but the open aborts. -/
theorem open_parses_every_line_counterexample :
    SSHAuthorizedKeysFile.openStore validC ⟨["ssh-rsa AAA", "  "], true⟩ = none ∧
    validC (pyStrip "ssh-rsa AAA") = true ∧
    SSHAuthorizedKeysFile.openStore validC ⟨["ssh-rsa AAA", "  "], true⟩
      ≠ some ⟨["ssh-rsa AAA"]⟩ := by
  decide

/-- C6 witness: the amended theorem evaluated on the file with a blank
second line: the open aborts. -/
theorem open_parses_every_line_witness :
    SSHAuthorizedKeysFile.openStore validC ⟨["ssh-rsa AAA", "  "], true⟩ = none :=
  (open_parses_every_line_amended validC validC_spec ⟨["ssh-rsa AAA", "  "], true⟩).1
    ⟨"  ", by decide, by decide⟩

theorem map_pyStrip_eq_self (L : List String) (h : ∀ x ∈ L, pyStrip x = x) :
    L.map pyStrip = L := by
  induction L with
  | nil => rfl
  | cons a t ih =>
    rw [List.map_cons, h a (List.mem_cons_self a t),
      ih (fun x hx => h x (List.mem_cons_of_mem a hx))]

theorem filter_swap (p q : String → Bool) (L : List String) :
    (L.filter p).filter q = (L.filter q).filter p := by
  induction L with
  | nil => rfl
  | cons a t ih =>
    by_cases hp : p a = true <;> by_cases hq : q a = true <;>
      simp [List.filter_cons, hp, hq, ih]

/-- C1 (amended): invariant A compares trimmed texts and holds with
qualifications: after a successful open the entries' raw texts are exactly
the file's (trimmed, necessarily non-blank) lines; append preserves the
agreement when the file is newline-terminated (appending to a file whose
last line lacks a newline merges bytes into that line) and any pre-built
entry argument satisfies the KeyEntry invariant; delete preserves it when
no two entries share the same raw text — in general delete removes every
matching physical line but only a single entry, breaking the agreement on
stores with duplicate raw texts. -/
theorem file_memory_agreement_amended (valid : String → Bool) (hv : ValidSpec valid) :
    (∀ (f : AKFile) (st : SSHAuthorizedKeysFile),
      SSHAuthorizedKeysFile.openStore valid f = some st → FileMemAgree st f) ∧
    (∀ (st : SSHAuthorizedKeysFile) (f : AKFile) (inp : AppendInput)
        (st₁ : SSHAuthorizedKeysFile) (f₁ : AKFile),
      EntryOK inp → f.terminated = true →
      SSHAuthorizedKeysFile.append valid st f inp = .ok (st₁, f₁) →
      FileMemAgree st f → FileMemAgree st₁ f₁) ∧
    (∀ (st : SSHAuthorizedKeysFile) (f : AKFile) (i : Int)
        (st₁ : SSHAuthorizedKeysFile) (f₁ : AKFile),
      st.keys.Nodup →
      SSHAuthorizedKeysFile.delItem st f i = some (st₁, f₁) →
      FileMemAgree st f → FileMemAgree st₁ f₁) := by
  refine ⟨?_, ?_, ?_⟩
  · intro f st h
    unfold SSHAuthorizedKeysFile.openStore at h
    cases hp : SSHAuthorizedKeysFile.parseAll valid f.lines with
    | none => rw [hp] at h; exact absurd h (by simp)
    | some ks =>
      rw [hp] at h
      simp only [Option.map_some', Option.some.injEq] at h
      obtain ⟨hks, hall⟩ := SSHAuthorizedKeysFile.parseAll_eq_some valid f.lines ks hp
      subst h
      unfold FileMemAgree
      show ks = _
      rw [hks]
      refine (List.filter_eq_self.mpr ?_).symm
      intro x hx
      obtain ⟨l, hl, rfl⟩ := List.mem_map.mp hx
      have hne := (hv l (hall l hl)).1
      simpa using hne
  · intro st f inp st₁ f₁ hok hterm hap hagree
    cases inp with
    | other => exact absurd hap (by simp [SSHAuthorizedKeysFile.append])
    | str L =>
      obtain ⟨hvL, hm, hst, hf⟩ := SSHAuthorizedKeysFile.append_str_ok valid st f L st₁ f₁ hap
      subst hst hf
      rw [SSHAuthorizedKeysFile.appendLine_terminated f _ hterm]
      have hne : pyStrip L ≠ "" := (hv L hvL).1
      unfold FileMemAgree at hagree ⊢
      show st.keys ++ [pyStrip L] = ((f.lines ++ [pyStrip L]).map pyStrip).filter _
      have hsingle : (([pyStrip L] : List String).map pyStrip).filter
          (fun l => decide (l ≠ "")) = [pyStrip L] := by
        simp [pyStrip_idem, hne]
      rw [List.map_append, List.filter_append, hsingle, ← hagree]
    | entry k =>
      obtain ⟨hk, hkne⟩ := hok
      obtain ⟨hm, hst, hf⟩ := SSHAuthorizedKeysFile.append_entry_ok valid st f k st₁ f₁ hap
      subst hst hf
      rw [SSHAuthorizedKeysFile.appendLine_terminated f _ hterm]
      unfold FileMemAgree at hagree ⊢
      show st.keys ++ [k] = ((f.lines ++ [k]).map pyStrip).filter _
      have hsingle : (([k] : List String).map pyStrip).filter
          (fun l => decide (l ≠ "")) = [k] := by
        simp [hk, hkne]
      rw [List.map_append, List.filter_append, hsingle, ← hagree]
  · intro st f i st₁ f₁ hnd hdel hagree
    obtain ⟨j, target, hj, hg, hst, hf⟩ :=
      SSHAuthorizedKeysFile.delItem_eq_some st f i st₁ f₁ hdel
    subst hst hf
    unfold FileMemAgree at hagree ⊢
    show st.keys.eraseIdx j = _
    have h2 : ∀ x ∈ (f.lines.map pyStrip).filter (fun l => decide (l ≠ target)),
        pyStrip x = x := by
      intro x hx
      obtain ⟨l, hl, rfl⟩ := List.mem_map.mp (List.mem_filter.mp hx).1
      exact pyStrip_idem l
    rw [show (⟨(f.lines.map pyStrip).filter (fun l => decide (l ≠ target)), true⟩ : AKFile).lines
        = (f.lines.map pyStrip).filter (fun l => decide (l ≠ target)) from rfl]
    rw [map_pyStrip_eq_self _ h2]
    rw [eraseIdx_eq_filter_of_nodup st.keys j target hnd hg, hagree]
    exact filter_swap _ _ _

/-- C1 counterexample: opening a file holding the same parseable line twice
succeeds with two agreeing entries; deleting entry 0 — a successful
operation — then removes both matching physical lines but only one entry,
so afterwards the entries' raw texts no longer equal the file's non-blank
lines. -/
theorem file_memory_agreement_counterexample :
    SSHAuthorizedKeysFile.openStore validC ⟨["ssh-rsa AAA", "ssh-rsa AAA"], true⟩
      = some ⟨["ssh-rsa AAA", "ssh-rsa AAA"]⟩ ∧
    SSHAuthorizedKeysFile.delItem ⟨["ssh-rsa AAA", "ssh-rsa AAA"]⟩
        ⟨["ssh-rsa AAA", "ssh-rsa AAA"], true⟩ 0
      = some (⟨["ssh-rsa AAA"]⟩, ⟨[], true⟩) ∧
    ¬ FileMemAgree ⟨["ssh-rsa AAA"]⟩ ⟨[], true⟩ := by
  refine ⟨by decide, by decide, ?_⟩
  unfold FileMemAgree
  decide

/-- C1 witness: the amended theorem evaluated on a concrete one-line file:
opening it yields a store agreeing with the file. -/
theorem file_memory_agreement_witness :
    FileMemAgree ⟨["ssh-rsa AAA"]⟩ ⟨["ssh-rsa AAA"], true⟩ :=
  (file_memory_agreement_amended validC validC_spec).1 ⟨["ssh-rsa AAA"], true⟩
    ⟨["ssh-rsa AAA"]⟩ (by decide)

/-! ### Facts about splitting and joining, for the comment method -/

theorem splitSp_ne_nil : ∀ l : List Char, splitSp l ≠ [] := by
  intro l
  cases l with
  | nil => simp [splitSp]
  | cons c t =>
    unfold splitSp
    by_cases hc : c = ' '
    · simp [hc]
    · rw [if_neg hc]
      cases splitSp t <;> simp

theorem splitSp_no_space : ∀ t : List Char, (∀ c ∈ t, c ≠ ' ') → splitSp t = [t] := by
  intro t
  induction t with
  | nil => intro _; rfl
  | cons c r ih =>
    intro h
    unfold splitSp
    rw [if_neg (h c (List.mem_cons_self c r)),
      ih (fun x hx => h x (List.mem_cons_of_mem c hx))]

theorem splitSp_append_space (rest : List Char) :
    ∀ t : List Char, (∀ c ∈ t, c ≠ ' ') →
      splitSp (t ++ ' ' :: rest) = t :: splitSp rest := by
  intro t
  induction t with
  | nil => intro _; rfl
  | cons c r ih =>
    intro h
    have hc := h c (List.mem_cons_self c r)
    have hstep : splitSp ((c :: r) ++ ' ' :: rest)
        = match splitSp (r ++ ' ' :: rest) with
          | [] => [[c]]
          | hh :: rr => (c :: hh) :: rr := by
      rw [show splitSp ((c :: r) ++ ' ' :: rest)
          = if c = ' ' then [] :: splitSp (r ++ ' ' :: rest)
            else match splitSp (r ++ ' ' :: rest) with
              | [] => [[c]]
              | hh :: rr => (c :: hh) :: rr from rfl]
      rw [if_neg hc]
    rw [hstep, ih (fun x hx => h x (List.mem_cons_of_mem c hx))]

theorem splitSp_joinSp :
    ∀ ts : List (List Char), ts ≠ [] → (∀ t ∈ ts, ∀ c ∈ t, c ≠ ' ') →
      splitSp (joinSp ts) = ts := by
  intro ts
  induction ts with
  | nil => intro h _; exact absurd rfl h
  | cons t r ih =>
    intro _ hws
    cases r with
    | nil => exact splitSp_no_space t (hws t (by simp))
    | cons t2 r2 =>
      show splitSp (t ++ ' ' :: joinSp (t2 :: r2)) = t :: t2 :: r2
      rw [splitSp_append_space (joinSp (t2 :: r2)) t (hws t (by simp)),
        ih (by simp) (fun u hu c hc => hws u (List.mem_cons_of_mem t hu) c hc)]

theorem joinSp_ne_nil (t : List Char) (ts : List (List Char)) (ht : t ≠ []) :
    joinSp (t :: ts) ≠ [] := by
  cases ts with
  | nil => exact ht
  | cons t2 r =>
    show t ++ ' ' :: joinSp (t2 :: r) ≠ []
    simp

theorem joinSp_head (t : List Char) (ts : List (List Char)) (c : Char) (ht : t ≠ [])
    (h : (joinSp (t :: ts)).head? = some c) : t.head? = some c := by
  cases ts with
  | nil => exact h
  | cons t2 r =>
    rw [show joinSp (t :: t2 :: r) = t ++ ' ' :: joinSp (t2 :: r) from rfl] at h
    cases t with
    | nil => exact absurd rfl ht
    | cons a t' => simpa using h

theorem mem_of_getLast? (l : List Char) (c : Char) (h : l.getLast? = some c) : c ∈ l := by
  cases l with
  | nil => simp at h
  | cons a t =>
    rw [List.getLast?_eq_getLast_of_ne_nil (List.cons_ne_nil a t)] at h
    simp only [Option.some.injEq] at h
    rw [← h]
    exact List.getLast_mem _

theorem joinSp_getLast :
    ∀ (ts : List (List Char)) (c : Char), (∀ t ∈ ts, t ≠ []) →
      (joinSp ts).getLast? = some c → ∃ t, t ∈ ts ∧ t.getLast? = some c := by
  intro ts
  induction ts with
  | nil => intro c _ h; simp [joinSp] at h
  | cons t r ih =>
    intro c hne h
    cases r with
    | nil => exact ⟨t, by simp, h⟩
    | cons t2 r2 =>
      rw [show joinSp (t :: t2 :: r2) = t ++ ' ' :: joinSp (t2 :: r2) from rfl,
        List.getLast?_append_cons] at h
      have hj : joinSp (t2 :: r2) ≠ [] := joinSp_ne_nil t2 r2 (hne t2 (by simp))
      cases hJ : joinSp (t2 :: r2) with
      | nil => exact absurd hJ hj
      | cons x xs =>
        rw [hJ, List.getLast?_cons_cons, ← hJ] at h
        obtain ⟨t', ht', hlast⟩ := ih c (fun u hu => hne u (List.mem_cons_of_mem t hu)) h
        exact ⟨t', List.mem_cons_of_mem t ht', hlast⟩

theorem pyStripList_joinSp (ts : List (List Char))
    (hne : ∀ t ∈ ts, t ≠ []) (hws : ∀ t ∈ ts, ∀ c ∈ t, isPySpace c = false) :
    pyStripList (joinSp ts) = joinSp ts := by
  cases ts with
  | nil => rfl
  | cons t r =>
    apply pyStripList_eq_self
    · intro c hc
      have hh := joinSp_head t r c (hne t (by simp)) hc
      have hct : c ∈ t := by
        cases t with
        | nil => simp at hh
        | cons a t' =>
          have ha : a = c := by simpa using hh
          rw [← ha]
          exact List.mem_cons_self a t'
      exact hws t (by simp) c hct
    · intro c hc
      obtain ⟨t', ht', hlast⟩ := joinSp_getLast (t :: r) c hne hc
      exact hws t' ht' c (mem_of_getLast? t' c hlast)

theorem wsTokensAux_token :
    ∀ (t l acc : List Char), (∀ c ∈ t, isPySpace c = false) →
      wsTokensAux (t ++ l) acc = wsTokensAux l (t.reverse ++ acc) := by
  intro t
  induction t with
  | nil => intro l acc _; rfl
  | cons c r ih =>
    intro l acc h
    have hc : isPySpace c = false := h c (List.mem_cons_self c r)
    have hstep : wsTokensAux ((c :: r) ++ l) acc = wsTokensAux (r ++ l) (c :: acc) := by
      rw [show wsTokensAux ((c :: r) ++ l) acc
          = if isPySpace c = true then
              (if acc = [] then wsTokensAux (r ++ l) []
               else acc.reverse :: wsTokensAux (r ++ l) [])
            else wsTokensAux (r ++ l) (c :: acc) from rfl]
      rw [if_neg (by simp [hc])]
    rw [hstep, ih l (c :: acc) (fun x hx => h x (List.mem_cons_of_mem c hx))]
    rw [show (c :: r).reverse ++ acc = r.reverse ++ (c :: acc) from by simp]

theorem wsTokens_joinSp :
    ∀ ts : List (List Char), (∀ t ∈ ts, t ≠ []) →
      (∀ t ∈ ts, ∀ c ∈ t, isPySpace c = false) → wsTokens (joinSp ts) = ts := by
  intro ts
  induction ts with
  | nil => intro _ _; rfl
  | cons t r ih =>
    intro hne hws
    cases r with
    | nil =>
      show wsTokensAux t [] = [t]
      have h1 := wsTokensAux_token t [] [] (hws t (by simp))
      rw [List.append_nil] at h1
      rw [h1]
      simp [wsTokensAux, hne t (by simp)]
    | cons t2 r2 =>
      show wsTokensAux (t ++ ' ' :: joinSp (t2 :: r2)) [] = t :: t2 :: r2
      rw [wsTokensAux_token t (' ' :: joinSp (t2 :: r2)) [] (hws t (by simp))]
      rw [List.append_nil]
      unfold wsTokensAux
      rw [if_pos (show isPySpace ' ' = true from rfl),
        if_neg (by simp [hne t (List.mem_cons_self t (t2 :: r2))])]
      rw [List.reverse_reverse]
      rw [show wsTokensAux (joinSp (t2 :: r2)) [] = wsTokens (joinSp (t2 :: r2)) from rfl]
      rw [ih (fun u hu => hne u (List.mem_cons_of_mem t hu))
        (fun u hu => hws u (List.mem_cons_of_mem t hu))]

/-- C8 (amended): comment() splits the raw line on single space characters
only (`split(' ')`), keeps the fragments after the first two, rejoins them
with single spaces and strips the result.  When the raw line's tokens are
separated by single spaces — the normal authorized_keys layout — this
equals the claim: all whitespace-separated tokens after the key-type and
payload tokens joined by single spaces (empty when there are none, since
`rest` may be `[]`); but a run of several spaces or a tab inside the
comment is preserved verbatim rather than normalised to single spaces. -/
theorem comment_tokens_amended (t0 t1 : List Char) (rest : List (List Char))
    (hne : ∀ t ∈ t0 :: t1 :: rest, t ≠ [])
    (hws : ∀ t ∈ t0 :: t1 :: rest, ∀ c ∈ t, isPySpace c = false) :
    SSHAuthorizedKeysEntry.comment (String.mk (joinSp (t0 :: t1 :: rest)))
        = String.mk (joinSp rest) ∧
    wsTokens (joinSp (t0 :: t1 :: rest)) = t0 :: t1 :: rest := by
  constructor
  · unfold SSHAuthorizedKeysEntry.comment
    rw [show (String.mk (joinSp (t0 :: t1 :: rest))).data
        = joinSp (t0 :: t1 :: rest) from rfl]
    have hsp : ∀ t ∈ t0 :: t1 :: rest, ∀ c ∈ t, c ≠ ' ' := by
      intro t ht c hc hceq
      have hf := hws t ht c hc
      rw [hceq] at hf
      exact absurd hf (by decide)
    rw [splitSp_joinSp (t0 :: t1 :: rest) (by simp) hsp]
    rw [show (t0 :: t1 :: rest).drop 2 = rest from rfl]
    rw [pyStripList_joinSp rest (fun t ht => hne t (by simp [ht]))
        (fun t ht => hws t (by simp [ht]))]
  · exact wsTokens_joinSp (t0 :: t1 :: rest) hne hws

/-- C8 witness: the amended theorem on the four-token line `"t p c d"`:
comment() returns `"c d"`, and those are indeed the whitespace tokens. -/
theorem comment_tokens_witness :
    SSHAuthorizedKeysEntry.comment
        (String.mk (joinSp [['t'], ['p'], ['c'], ['d']]))
      = String.mk (joinSp [['c'], ['d']]) ∧
    wsTokens (joinSp [['t'], ['p'], ['c'], ['d']]) = [['t'], ['p'], ['c'], ['d']] :=
  comment_tokens_amended ['t'] ['p'] [['c'], ['d']] (by decide) (by decide)

/-- C8 counterexample: on the raw line `"ka b x  y"` the
whitespace-separated tokens after the first two are `x` and `y`, which
joined by single spaces give `"x y"`; comment() instead returns `"x  y"`,
preserving the interior double space. -/
theorem comment_tokens_counterexample :
    SSHAuthorizedKeysEntry.comment "ka b x  y" = "x  y" ∧
    String.mk (joinSp ((wsTokens ("ka b x  y").data).drop 2)) = "x y" ∧
    ("x  y" : String) ≠ "x y" := by
  decide
